import Mathlib

/-!
Verification development for the `artemis` experiment registry and execution
harness (`artemis/experiments/experiments.py`).

The Python source is shallowly embedded as executable Lean definitions:

* `Experiment.run` embeds `Experiment.run` (lines 97-153): flag resolution,
  the try/except/finally status state machine, error-trace handling and the
  result hand-off.  The callable's behaviour is abstracted by a `CallOutcome`
  value (normal return, `KeyboardInterrupt`, or any other exception); external
  collaborators (`record_experiment`, logging, figure capture, metadata
  introspection) are represented by the observable effects the claims talk
  about (record fields set, trace written/printed, result saved).
* `_kwargs_to_experiment_name` embeds the automatic variant-naming function
  (lines 351-352); keyword-argument dictionaries are association lists whose
  values are already rendered to their string form.
* `Experiment` (the inductive) embeds the variant-tree entity: `name`,
  `is_root`, and the insertion-ordered `variants` mapping.  The underlying
  callable and the display/comparison callables are external collaborators
  not consulted by any claim, so they are not part of the tree model.
* `Experiment.create_experiment_variant`, `Experiment.get_all_variants`,
  `Experiment.get_records`, `Experiment.get_latest_record`,
  `Experiment.get_variant_records`, `_register_experiment`,
  `capture_created_experiments` embed the functions of the same names.
  Python `dict` / `OrderedDict` state is modelled by association lists with
  `upsertAssoc` giving the dict-assignment semantics (replace in place for an
  existing key, append for a fresh one); the global registry is passed as
  explicit state.  Persistent record storage is an environment
  `String → List StoredRecord` mapping an experiment name to its stored
  records in chronological order.
-/

/-- Status values of `ExpStatusOptions` used by `Experiment.run`. -/
inductive ExpStatusOptions where
  | started
  | finished
  | stopped
  | error
deriving DecidableEq

/-- Observable state of the run record (`exp_rec`) produced by one call of
`Experiment.run`: the lifecycle status field, whether an error trace was
written into the record, whether that trace was echoed to the console
(`write_error_trace(print_too=...)`), the persisted result payload
(`save_result`), whether the `finally` block recorded runtime/figures, and
whether the record uses a temporary directory (`use_temp_dir=not keep_record`). -/
structure ExpRecord where
  status : ExpStatusOptions
  errorTraceWritten : Bool
  errorTracePrinted : Bool
  resultSaved : Option Nat
  runtimeRecorded : Bool
  useTempDir : Bool
deriving DecidableEq

/-- How the experiment's callable (`self.function()`) behaves during the run:
it returns a value, raises `KeyboardInterrupt`, or raises any other
exception. -/
inductive CallOutcome where
  | success (value : Nat)
  | interrupt
  | failure
deriving DecidableEq

/-- How `Experiment.run` terminates: it returns the record, re-raises
`KeyboardInterrupt`, or re-raises the callable's exception.  Each constructor
carries the state of the run record at that point. -/
inductive RunReturn where
  | returned (record : ExpRecord)
  | raisedInterrupt (record : ExpRecord)
  | raisedError (record : ExpRecord)
deriving DecidableEq

/-- The run record carried by any termination of `Experiment.run`. -/
def RunReturn.record : RunReturn → ExpRecord
  | .returned r => r
  | .raisedInterrupt r => r
  | .raisedError r => r

/-- True iff the run re-raised `KeyboardInterrupt`. -/
def RunReturn.raisesInterrupt : RunReturn → Bool
  | .raisedInterrupt _ => true
  | _ => false

/-- True iff the run returned normally (without raising). -/
def RunReturn.isReturn : RunReturn → Bool
  | .returned _ => true
  | _ => false

/-- Full observable result of one call of `Experiment.run`: the resolved
`test_mode` and `keep_record` flags, the value of the process-wide test-mode
flag once the call has completed (by returning or by raising), and the
termination with its record. -/
structure RunResult where
  resolvedTestMode : Bool
  resolvedKeepRecord : Bool
  finalTestMode : Bool
  outcome : RunReturn
deriving DecidableEq

/-- The run record of a completed `Experiment.run` call. -/
def RunResult.record (res : RunResult) : ExpRecord :=
  res.outcome.record

/-- Embedding of `Experiment.run` (experiments.py lines 97-153).

`g_test_mode` is the process-wide test-mode flag before the call
(`is_test_mode()`), `keep_record_by_default` the module-level override,
`test_mode_arg` / `keep_record_arg` / `raise_exceptions` the parameters of
`run`, and `outcome` the behaviour of `self.function()`.

Control flow mirrored from the source: the flag defaults are resolved
(lines 97-100), `old_test_mode` is saved and the global flag set to the
resolved `test_mode` (lines 102-103), the record is created and its status
driven through the `try`/`except KeyboardInterrupt`/`except Exception`
branches (lines 112-139) with the `finally` block (lines 140-144) running on
every path, and only on the normal path does control reach
`exp_rec.save_result(results)` and `set_test_mode(old_test_mode)`
(lines 146-153).  On the `raise` paths (lines 132 and 137) and on the early
`return exp_rec` (line 139) the function terminates while the global flag
still holds the resolved `test_mode`. -/
def Experiment.run (g_test_mode : Bool) (keep_record_by_default : Option Bool)
    (test_mode_arg keep_record_arg : Option Bool) (raise_exceptions : Bool)
    (outcome : CallOutcome) : RunResult :=
  let test_mode := test_mode_arg.getD g_test_mode
  let keep_record := keep_record_arg.getD (keep_record_by_default.getD (!test_mode))
  let old_test_mode := g_test_mode
  let exp_rec : ExpRecord :=
    { status := .started, errorTraceWritten := false, errorTracePrinted := false,
      resultSaved := none, runtimeRecorded := false, useTempDir := !keep_record }
  match outcome with
  | .success v =>
      let exp_rec := { exp_rec with status := .finished, runtimeRecorded := true }
      let exp_rec := { exp_rec with resultSaved := some v }
      { resolvedTestMode := test_mode, resolvedKeepRecord := keep_record,
        finalTestMode := old_test_mode, outcome := .returned exp_rec }
  | .interrupt =>
      let exp_rec := { exp_rec with
        status := .stopped, errorTraceWritten := true,
        errorTracePrinted := false, runtimeRecorded := true }
      { resolvedTestMode := test_mode, resolvedKeepRecord := keep_record,
        finalTestMode := test_mode, outcome := .raisedInterrupt exp_rec }
  | .failure =>
      let exp_rec := { exp_rec with
        status := .error, errorTraceWritten := true,
        errorTracePrinted := !raise_exceptions, runtimeRecorded := true }
      { resolvedTestMode := test_mode, resolvedKeepRecord := keep_record,
        finalTestMode := test_mode,
        outcome := if raise_exceptions then .raisedError exp_rec else .returned exp_rec }

/-- Embedding of `Experiment.test` (lines 263-264): `self.run(test_mode=True,
**kwargs)` with no `return` statement, so the Python return value is `None`.
The first component is the observable result of the inner `run` call, the
second the value `test` itself hands back to its caller. -/
def Experiment.test (g_test_mode : Bool) (keep_record_by_default : Option Bool)
    (keep_record_arg : Option Bool) (raise_exceptions : Bool)
    (outcome : CallOutcome) : RunResult × Option ExpRecord :=
  let res := Experiment.run g_test_mode keep_record_by_default (some true)
    keep_record_arg raise_exceptions outcome
  (res, none)

/-- Embedding of `_kwargs_to_experiment_name` (lines 351-352):
`','.join('{0}={1}'.format(argname, kwargs[argname]) for argname in
sorted(kwargs.keys()))`.  Keyword arguments are an association list whose
values are already in their default string form; `kwargs[argname]` is total
in the source because `argname` ranges over the dictionary's own keys, so the
`getD ""` default is never exercised on the keys actually used. -/
def _kwargs_to_experiment_name (kwargs : List (String × String)) : String :=
  String.intercalate ","
    ((List.insertionSort (fun a b => a ≤ b) (kwargs.map Prod.fst)).map
      (fun argname => argname ++ "=" ++ ((kwargs.lookup argname).getD "")))

/-- The variant-tree entity of `Experiment.__init__` (lines 25-44): the
fully-qualified `name`, the `is_root` flag, and the insertion-ordered
`variants` mapping from local variant name to child node.  The underlying
callable and the display/comparison callables are external collaborators not
consulted by any of the claims, so they are not modelled. -/
inductive Experiment where
  | mk (name : String) (is_root : Bool) (variants : List (String × Experiment))

/-- The `name` attribute. -/
def Experiment.name : Experiment → String
  | .mk n _ _ => n

/-- The `is_root` attribute. -/
def Experiment.is_root : Experiment → Bool
  | .mk _ r _ => r

/-- The `variants` ordered mapping. -/
def Experiment.variants : Experiment → List (String × Experiment)
  | .mk _ _ vs => vs

/-- The global registry `GLOBAL_EXPERIMENT_LIBRARY`, an `OrderedDict` from
fully-qualified experiment name to experiment, passed as explicit state. -/
abbrev Registry := List (String × Experiment)

/-- Python dict assignment `d[k] = v` on an insertion-ordered association
list: an existing key keeps its position and has its value replaced, a fresh
key is appended at the end. -/
def upsertAssoc {α : Type} : List (String × α) → String → α → List (String × α)
  | [], k, v => [(k, v)]
  | (k', v') :: rest, k, v =>
      if k' = k then (k', v) :: rest else (k', v') :: upsertAssoc rest k v

/-- Embedding of `_register_experiment` (lines 331-332):
`GLOBAL_EXPERIMENT_LIBRARY[experiment.name] = experiment`. -/
def _register_experiment (reg : Registry) (e : Experiment) : Registry :=
  upsertAssoc reg e.name e

/-- The failure modes of `_create_experiment_variant`: the arity assertion on
line 156 and the duplicate-name assertion on line 158. -/
inductive VariantError where
  | invalidArity
  | duplicateVariant (name : String)
deriving DecidableEq

/-- Name resolution of `_create_experiment_variant` (line 157):
`args[0] if len(args) == 1 else _kwargs_to_experiment_name(kwargs)`. -/
def resolveVariantName (args : List String) (kwargs : List (String × String)) : String :=
  match args with
  | [a] => a
  | _ => _kwargs_to_experiment_name kwargs

/-- Result of one `_create_experiment_variant` call: the created experiment
(or the assertion error raised), together with the state of the parent and of
the global registry after the call.  On the error paths the assertions fire
before any mutation, so parent and registry are handed back unchanged. -/
structure CreateOutcome where
  result : Except VariantError Experiment
  parent : Experiment
  registry : Registry

/-- Embedding of `Experiment._create_experiment_variant` (lines 155-168):
assert `len(args) in (0, 1)`; resolve the variant name; assert the name is
not already a key of `self.variants`; build the child experiment (whose
`__init__` registers it in the global registry unless `is_root`); insert it
into `self.variants` under the resolved name. -/
def Experiment.create_experiment_variant (parent : Experiment) (args : List String)
    (kwargs : List (String × String)) (is_root : Bool) (reg : Registry) : CreateOutcome :=
  match args with
  | _ :: _ :: _ => ⟨.error .invalidArity, parent, reg⟩
  | _ =>
    let name := resolveVariantName args kwargs
    if (parent.variants.lookup name).isSome then
      ⟨.error (.duplicateVariant name), parent, reg⟩
    else
      let ex := Experiment.mk (parent.name ++ "." ++ name) is_root []
      let reg' := if is_root then reg else _register_experiment reg ex
      ⟨.ok ex, Experiment.mk parent.name parent.is_root (parent.variants ++ [(name, ex)]),
        reg'⟩

/-- One variant creation performed somewhere in the process: a call of
`_create_experiment_variant` on some parent node with some arguments
(`add_variant` when `is_root` is false, `add_root_variant` when true). -/
structure CreationStep where
  parent : Experiment
  args : List String
  kwargs : List (String × String)
  is_root : Bool

/-- The registry reached from `reg` by a sequence of variant creations; each
step contributes the registry effect of its `_create_experiment_variant`
call. -/
def applyCreations (reg : Registry) (steps : List CreationStep) : Registry :=
  steps.foldl
    (fun r s => (Experiment.create_experiment_variant s.parent s.args s.kwargs s.is_root r).registry)
    reg

/-- Embedding of `Experiment.get_all_variants` (lines 249-261): include the
node itself when `include_self` and (not a root or `include_roots`), then
recursively collect every child's variants with `include_self=True`. -/
def Experiment.get_all_variants (e : Experiment) (include_roots include_self : Bool) :
    List Experiment :=
  match e with
  | .mk n r vs =>
    (if include_self && (!r || include_roots) then [Experiment.mk n r vs] else []) ++ go vs
where go : List (String × Experiment) → List Experiment
  | [] => []
  | (_, v) :: rest => v.get_all_variants include_roots true ++ go rest

/-- A record held by the external record store, as seen by the query layer:
an identifier and the status it ended in. -/
structure StoredRecord where
  rid : Nat
  status : ExpStatusOptions
deriving DecidableEq

/-- Embedding of `Experiment.get_records` (lines 223-227): load every record
the store holds for `self.name` and, when `only_completed`, keep only those
with status `FINISHED`.  `env` stands for
`experiment_id_to_record_ids` / `load_experiment_record`, returning the
stored records of a name in the store's (chronological) order. -/
def Experiment.get_records (e : Experiment) (env : String → List StoredRecord)
    (only_completed : Bool) : List StoredRecord :=
  let records := env e.name
  if only_completed then records.filter (fun r => r.status == .finished) else records

/-- Embedding of `Experiment.get_latest_record` (lines 266-280) on the
`err_if_none=False` path used by `get_variant_records`: the last element of
`get_records`, or `none` when there are no records (`records[-1]`, guarded by
the emptiness check). -/
def Experiment.get_latest_record (e : Experiment) (env : String → List StoredRecord)
    (only_completed : Bool) : Option StoredRecord :=
  let records := e.get_records env only_completed
  records.getLast?

/-- The value returned by `get_variant_records`: a flat list of records, an
ordered name-to-latest-record mapping (`only_last`, record may be absent), or
an ordered name-to-record-list mapping. -/
inductive VariantRecords where
  | flat (records : List StoredRecord)
  | lastDict (entries : List (String × Option StoredRecord))
  | allDict (entries : List (String × List StoredRecord))

/-- `OrderedDict(...)` built from a sequence of key-value pairs: sequential
dict assignment, so a duplicated key keeps its first position and its last
value. -/
def odFromList {α : Type} (l : List (String × α)) : List (String × α) :=
  l.foldl (fun acc p => upsertAssoc acc p.1 p.2) []

/-- Embedding of `Experiment.get_variant_records` (lines 282-302):
`variants = self.get_all_variants(include_self=True)`; under `only_last` an
`OrderedDict` of each variant's latest record (absent records become `None`),
flattened with `None` entries dropped when `flat`; otherwise an `OrderedDict`
of each variant's full record list, concatenated when `flat`. -/
def Experiment.get_variant_records (e : Experiment) (env : String → List StoredRecord)
    (only_completed only_last flat : Bool) : VariantRecords :=
  let variants := e.get_all_variants false true
  if only_last then
    let exp_record_dict :=
      odFromList (variants.map (fun ex => (ex.name, ex.get_latest_record env only_completed)))
    if flat then .flat ((exp_record_dict.map Prod.snd).filterMap id)
    else .lastDict exp_record_dict
  else
    let exp_record_dict :=
      odFromList (variants.map (fun ex => (ex.name, ex.get_records env only_completed)))
    if flat then .flat ((exp_record_dict.map Prod.snd).flatten)
    else .allDict exp_record_dict

/-- Embedding of `capture_created_experiments` (lines 317-328): remember
`current_len = len(GLOBAL_EXPERIMENT_LIBRARY)` at scope entry; the body of
the scope performs the registrations in `created` (each one a
`_register_experiment` call); at scope exit the experiments at positions
`current_len:` of the registry's value sequence are appended to the captured
list.  Returns the final registry and the captured list the scope yields. -/
def capture_created_experiments (reg : Registry) (created : List Experiment) :
    Registry × List Experiment :=
  let current_len := reg.length
  let regFinal := created.foldl _register_experiment reg
  (regFinal, (regFinal.drop current_len).map Prod.snd)

/-- Concrete tree with two distinct variants sharing the full name "a.b.c":
the variant created as `add_variant('b.c')` on "a", and the variant created
as `add_variant('c')` on "a.b". -/
def collidingTree : Experiment :=
  Experiment.mk "a" false
    [("b.c", Experiment.mk "a.b.c" false []),
     ("b", Experiment.mk "a.b" false [("c", Experiment.mk "a.b.c" false [])])]

/-!
Theorems.  Each claim of the specification is settled by one theorem below;
shared helper lemmas precede the claim theorems that use them.
-/

/-- Claim C1 (code behaviour at the failing input): in a run with
`test_mode=True`, `raise_exceptions=False` and a pre-call test-mode flag of
`false`, the callable raises, `run` returns the error record instead of
raising, and the process-wide test-mode flag after the call is `true` — not
its pre-call value `false`.  `set_test_mode(old_test_mode)` on line 152 is
unreachable from the early `return` on line 139, and likewise from the
`raise` statements on lines 132 and 137, as the last two conjuncts show for
the raising exits. -/
theorem run_flag_left_modified_on_handled_error :
    ((Experiment.run false none (some true) none false .failure).outcome.isReturn = true) ∧
    ((Experiment.run false none (some true) none false .failure).finalTestMode = true) ∧
    ((Experiment.run false none (some true) none true .failure).finalTestMode = true) ∧
    ((Experiment.run false none (some true) none true .interrupt).finalTestMode = true) :=
  ⟨rfl, rfl, rfl, rfl⟩

/-- Claim C2: a run whose callable raises `KeyboardInterrupt` re-raises the
interruption to the caller (for both values of `raise_exceptions`), with the
record's status set to `STOPPED` and the failure trace written into the
record but not printed. -/
theorem run_interrupt_stops_and_reraises (g : Bool) (kbd tm kr : Option Bool) (re : Bool) :
    ((Experiment.run g kbd tm kr re .interrupt).outcome.raisesInterrupt = true) ∧
    ((Experiment.run g kbd tm kr re .interrupt).record.status = .stopped) ∧
    ((Experiment.run g kbd tm kr re .interrupt).record.errorTraceWritten = true) ∧
    ((Experiment.run g kbd tm kr re .interrupt).record.errorTracePrinted = false) :=
  ⟨rfl, rfl, rfl, rfl⟩

/-- Claim C3: a run whose callable raises a non-interruption exception sets
the record's status to `ERROR` and writes the failure trace into the record;
the trace is echoed to the console exactly when `raise_exceptions` is false;
when `raise_exceptions` is true the exception propagates, otherwise the
error-state record is returned without raising. -/
theorem run_failure_error_handling (g : Bool) (kbd tm kr : Option Bool) (re : Bool) :
    ((Experiment.run g kbd tm kr re .failure).record.status = .error) ∧
    ((Experiment.run g kbd tm kr re .failure).record.errorTraceWritten = true) ∧
    ((Experiment.run g kbd tm kr re .failure).record.errorTracePrinted = !re) ∧
    ((Experiment.run g kbd tm kr re .failure).outcome =
      (if re then RunReturn.raisedError (Experiment.run g kbd tm kr re .failure).record
       else RunReturn.returned (Experiment.run g kbd tm kr re .failure).record)) := by
  cases re <;> exact ⟨rfl, rfl, rfl, rfl⟩

/-- Claim C4 (counterexample): a handled-error run (`raise_exceptions=False`,
callable raises) returns the record without raising, yet its result payload
is not persisted — `exp_rec.save_result(results)` on line 146 is after the
`with` block, and the early `return exp_rec` on line 139 leaves `run` before
reaching it.  This refutes the claim that the result payload is persisted on
handled-error completion. -/
theorem run_handled_error_result_not_saved :
    ((Experiment.run false none none none false .failure).outcome.isReturn = true) ∧
    ((Experiment.run false none none none false .failure).record.resultSaved = none) :=
  ⟨rfl, rfl⟩

/-- Claim C4 (amended): the run record's result payload is persisted on
normal completion only — never on handled-error completion (the record is
returned with no saved result) and never on interruption. -/
theorem run_result_saved_only_on_success (g : Bool) (kbd tm kr : Option Bool)
    (re : Bool) (v : Nat) :
    ((Experiment.run g kbd tm kr re (.success v)).record.resultSaved = some v) ∧
    ((Experiment.run g kbd tm kr re .failure).record.resultSaved = none) ∧
    ((Experiment.run g kbd tm kr re .interrupt).record.resultSaved = none) := by
  cases re <;> exact ⟨rfl, rfl, rfl⟩

/-- Claim C10: `test(**kwargs)` invokes `run` with `test_mode` forced to
`True` (the resolved test mode of the inner run is `true` whatever the
process-wide flag was), and always hands back `None` to its caller — even
when the run succeeds with `keep_record=True`, in which case the inner run's
record does carry the saved result but is discarded. -/
theorem test_forces_test_mode_and_returns_none (g : Bool) (kbd kr : Option Bool)
    (re : Bool) (oc : CallOutcome) :
    ((Experiment.test g kbd kr re oc).2 = none) ∧
    ((Experiment.test g kbd kr re oc).1.resolvedTestMode = true) ∧
    (∀ v, oc = .success v →
      (Experiment.test g kbd kr re oc).1.record.resultSaved = some v) := by
  cases oc with
  | success v0 =>
      exact ⟨rfl, rfl, fun v hv => by injection hv with h; subst h; rfl⟩
  | interrupt => exact ⟨rfl, rfl, fun v hv => nomatch hv⟩
  | failure =>
      cases re <;> exact ⟨rfl, rfl, fun v hv => nomatch hv⟩

/-- Witness for C10 at a concrete input: a successful run under
`test(keep_record=True)` resolves test mode to `true`, saves the result `7`
into the record, and still returns `None`. -/
theorem test_forces_test_mode_and_returns_none_witness :
    ((Experiment.test false none (some true) true (.success 7)).2 = none) ∧
    ((Experiment.test false none (some true) true (.success 7)).1.resolvedTestMode = true) ∧
    ((Experiment.test false none (some true) true (.success 7)).1.record.resultSaved = some 7) :=
  ⟨(test_forces_test_mode_and_returns_none false none (some true) true (.success 7)).1,
   (test_forces_test_mode_and_returns_none false none (some true) true (.success 7)).2.1,
   (test_forces_test_mode_and_returns_none false none (some true) true (.success 7)).2.2 7 rfl⟩

/-!
Association-list lookup lemmas shared by the naming, registry and query
theorems.
-/

theorem lookup_eq_some_of_mem_of_nodup {α : Type} {l : List (String × α)}
    {a : String} {b : α} (hmem : (a, b) ∈ l) (hnd : (l.map Prod.fst).Nodup) :
    l.lookup a = some b := by
  induction l with
  | nil => simp at hmem
  | cons p rest ih =>
      obtain ⟨k, v⟩ := p
      simp only [List.map_cons, List.nodup_cons] at hnd
      rcases List.mem_cons.mp hmem with h | h
      · simp only [Prod.mk.injEq] at h
        obtain ⟨rfl, rfl⟩ := h
        simp [List.lookup]
      · have hne : a ≠ k := by
          rintro rfl
          exact hnd.1 (List.mem_map.mpr ⟨(a, b), h, rfl⟩)
        simpa [List.lookup, beq_false_of_ne hne] using ih h hnd.2

theorem mem_of_lookup_eq_some {α : Type} {l : List (String × α)} {a : String} {b : α}
    (h : l.lookup a = some b) : (a, b) ∈ l := by
  induction l with
  | nil => simp [List.lookup] at h
  | cons p rest ih =>
      obtain ⟨k, v⟩ := p
      by_cases hak : a = k
      · subst hak
        simp [List.lookup] at h
        subst h
        exact List.mem_cons_self ..
      · simp only [List.lookup, beq_false_of_ne hak] at h
        exact List.mem_cons_of_mem _ (ih h)

theorem lookup_eq_none_of_not_mem {α : Type} {l : List (String × α)} {a : String}
    (h : a ∉ l.map Prod.fst) : l.lookup a = none := by
  induction l with
  | nil => rfl
  | cons p rest ih =>
      obtain ⟨k, v⟩ := p
      simp only [List.map_cons, List.mem_cons, not_or] at h
      simpa [List.lookup, beq_false_of_ne h.1] using ih h.2

theorem lookup_eq_of_perm_of_nodup {α : Type} {l1 l2 : List (String × α)}
    (hp : List.Perm l1 l2) (hnd : (l1.map Prod.fst).Nodup) (a : String) :
    l1.lookup a = l2.lookup a := by
  cases h : l1.lookup a with
  | some b =>
      exact (lookup_eq_some_of_mem_of_nodup (hp.mem_iff.mp (mem_of_lookup_eq_some h))
        ((hp.map Prod.fst).nodup_iff.mp hnd)).symm
  | none =>
      have hnotin : a ∉ l2.map Prod.fst := by
        intro hin
        obtain ⟨p, hpmem, hpa⟩ := List.mem_map.mp hin
        have : l1.lookup a = some p.2 := by
          refine lookup_eq_some_of_mem_of_nodup ?_ hnd
          have := hp.mem_iff.mpr hpmem
          simpa [← hpa] using this
        simp [h] at this
      exact (lookup_eq_none_of_not_mem hnotin).symm

/-- Claim C5: the automatic variant-naming function is order-independent —
for keyword-argument dictionaries (association lists with pairwise-distinct
keys), permuting the insertion order yields a byte-identical name, because
the keys are sorted lexicographically before the `key=value` pairs are joined
with commas. -/
theorem kwargs_to_experiment_name_perm_invariant (k1 k2 : List (String × String))
    (hnd : (k1.map Prod.fst).Nodup) (hp : List.Perm k1 k2) :
    _kwargs_to_experiment_name k1 = _kwargs_to_experiment_name k2 := by
  unfold _kwargs_to_experiment_name
  have hkeys : List.Perm (k1.map Prod.fst) (k2.map Prod.fst) := hp.map Prod.fst
  have hsortperm :
      List.Perm (List.insertionSort (fun a b => a ≤ b) (k1.map Prod.fst))
        (List.insertionSort (fun a b => a ≤ b) (k2.map Prod.fst)) :=
    ((List.perm_insertionSort _ _).trans hkeys).trans (List.perm_insertionSort _ _).symm
  have heq :
      List.insertionSort (fun a b => a ≤ b) (k1.map Prod.fst) =
        List.insertionSort (fun a b => a ≤ b) (k2.map Prod.fst) :=
    List.eq_of_perm_of_sorted hsortperm
      (List.sorted_insertionSort _ _) (List.sorted_insertionSort _ _)
  rw [heq]
  have hfun :
      (fun argname => argname ++ "=" ++ ((k1.lookup argname).getD "")) =
        (fun argname => argname ++ "=" ++ ((k2.lookup argname).getD "")) :=
    funext fun a => by rw [lookup_eq_of_perm_of_nodup hp hnd a]
  rw [hfun]

/-- Witness for C5 at a concrete input: the two insertion orders of
`dict(a="1", b="2")` are a permutation of each other with distinct keys, and
they produce identical names. -/
theorem kwargs_to_experiment_name_perm_invariant_witness :
    ((([("b", "2"), ("a", "1")] : List (String × String)).map Prod.fst).Nodup) ∧
    (List.Perm ([("b", "2"), ("a", "1")] : List (String × String)) [("a", "1"), ("b", "2")]) ∧
    (_kwargs_to_experiment_name [("b", "2"), ("a", "1")] =
      _kwargs_to_experiment_name [("a", "1"), ("b", "2")]) :=
  ⟨by decide, by decide,
   kwargs_to_experiment_name_perm_invariant _ _ (by decide) (by decide)⟩

/-- Claim C6: variant creation with more than one positional argument fails
with the arity error, and creation whose resolved name (explicit or
kwargs-derived) is already a key of the parent's variant map fails with the
duplicate-variant error; in both failure cases the assertion fires before any
mutation, so the parent (in particular its variant map) and the registry are
handed back unchanged.  `add_variant` and `add_root_variant` both delegate
here, so the statement covers both values of `is_root`. -/
theorem create_experiment_variant_failure_cases :
    (∀ (parent : Experiment) (a b : String) (rest : List String)
        (kwargs : List (String × String)) (ir : Bool) (reg : Registry),
      Experiment.create_experiment_variant parent (a :: b :: rest) kwargs ir reg =
        ⟨.error .invalidArity, parent, reg⟩) ∧
    (∀ (parent : Experiment) (args : List String) (kwargs : List (String × String))
        (ir : Bool) (reg : Registry), args.length ≤ 1 →
      ((parent.variants.lookup (resolveVariantName args kwargs)).isSome = true) →
      Experiment.create_experiment_variant parent args kwargs ir reg =
        ⟨.error (.duplicateVariant (resolveVariantName args kwargs)), parent, reg⟩) := by
  constructor
  · intro parent a b rest kwargs ir reg
    rfl
  · intro parent args kwargs ir reg hlen hdup
    match args with
    | [] => simp [Experiment.create_experiment_variant, hdup]
    | [a] => simp [Experiment.create_experiment_variant, hdup]
    | a :: b :: rest => simp at hlen

/-- Witness for C6 at concrete inputs: two positional arguments trigger the
arity error, and re-creating the existing variant name "v" triggers the
duplicate error, both leaving parent and registry untouched. -/
theorem create_experiment_variant_failure_cases_witness :
    (Experiment.create_experiment_variant (Experiment.mk "exp" false []) ["x", "y"] []
        false [] = ⟨.error .invalidArity, Experiment.mk "exp" false [], []⟩) ∧
    ((["v"] : List String).length ≤ 1) ∧
    (((Experiment.mk "exp" false [("v", Experiment.mk "exp.v" false [])]).variants.lookup
        (resolveVariantName ["v"] [])).isSome = true) ∧
    (Experiment.create_experiment_variant
        (Experiment.mk "exp" false [("v", Experiment.mk "exp.v" false [])]) ["v"] [] false [] =
      ⟨.error (.duplicateVariant (resolveVariantName ["v"] [])),
        Experiment.mk "exp" false [("v", Experiment.mk "exp.v" false [])], []⟩) :=
  ⟨create_experiment_variant_failure_cases.1 (Experiment.mk "exp" false []) "x" "y" [] [] false [],
   by decide, rfl,
   create_experiment_variant_failure_cases.2
     (Experiment.mk "exp" false [("v", Experiment.mk "exp.v" false [])]) ["v"] [] false []
     (by decide) rfl⟩

/-!
Dict-upsert lemmas: how `upsertAssoc` affects keys, length and lookups, and
how a fold of registrations behaves.  These drive the registry claims.
-/

theorem upsertAssoc_append_of_not_mem {α : Type} {l : List (String × α)} {k : String}
    {v : α} (h : k ∉ l.map Prod.fst) : upsertAssoc l k v = l ++ [(k, v)] := by
  induction l with
  | nil => rfl
  | cons p rest ih =>
      obtain ⟨k', v'⟩ := p
      simp only [List.map_cons, List.mem_cons, not_or] at h
      have hne : k' ≠ k := fun he => h.1 he.symm
      simp [upsertAssoc, hne, ih h.2]

theorem upsertAssoc_keys_of_mem {α : Type} {l : List (String × α)} {k : String}
    {v : α} (h : k ∈ l.map Prod.fst) :
    (upsertAssoc l k v).map Prod.fst = l.map Prod.fst := by
  induction l with
  | nil => simp at h
  | cons p rest ih =>
      obtain ⟨k', v'⟩ := p
      by_cases hk : k' = k
      · simp [upsertAssoc, hk]
      · simp only [List.map_cons, List.mem_cons] at h
        rcases h with h | h
        · exact absurd h.symm hk
        · simp [upsertAssoc, hk, ih h]

theorem lookup_upsertAssoc_self {α : Type} (l : List (String × α)) (k : String) (v : α) :
    (upsertAssoc l k v).lookup k = some v := by
  induction l with
  | nil => simp [upsertAssoc, List.lookup]
  | cons p rest ih =>
      obtain ⟨k', v'⟩ := p
      by_cases hk : k' = k
      · simp [upsertAssoc, hk, List.lookup]
      · have hne : k ≠ k' := fun he => hk he.symm
        simp [upsertAssoc, hk, List.lookup, beq_false_of_ne hne, ih]

theorem lookup_upsertAssoc_of_ne {α : Type} {l : List (String × α)} {k kq : String}
    (v : α) (h : kq ≠ k) : (upsertAssoc l k v).lookup kq = l.lookup kq := by
  induction l with
  | nil => simp [upsertAssoc, List.lookup, beq_false_of_ne h]
  | cons p rest ih =>
      obtain ⟨k', v'⟩ := p
      by_cases hk : k' = k
      · subst hk
        simp [upsertAssoc, List.lookup, beq_false_of_ne h]
      · by_cases hq : kq = k'
        · simp [upsertAssoc, hk, List.lookup, hq]
        · simp [upsertAssoc, hk, List.lookup, beq_false_of_ne hq, ih]

theorem lookup_foldl_register_of_not_registered :
    ∀ (rs : List Experiment) (reg : Registry) (k : String),
      (∀ e2 ∈ rs, e2.name ≠ k) →
      (rs.foldl _register_experiment reg).lookup k = reg.lookup k := by
  intro rs
  induction rs with
  | nil => intro reg k _; rfl
  | cons e rs ih =>
      intro reg k h
      rw [List.foldl_cons]
      rw [ih _ k (fun e2 he2 => h e2 (List.mem_cons_of_mem _ he2))]
      exact lookup_upsertAssoc_of_ne e (Ne.symm (h e (List.mem_cons_self ..)))

theorem foldl_register_take_keys :
    ∀ (rs : List Experiment) (reg : Registry),
      ((rs.foldl _register_experiment reg).take reg.length).map Prod.fst =
        reg.map Prod.fst := by
  intro rs
  induction rs with
  | nil => intro reg; simp
  | cons e rs ih =>
      intro reg
      rw [List.foldl_cons]
      simp only [_register_experiment]
      by_cases hmem : e.name ∈ reg.map Prod.fst
      · have hkeys := upsertAssoc_keys_of_mem (v := e) hmem
        have hlen : (upsertAssoc reg e.name e).length = reg.length := by
          have := congrArg List.length hkeys
          simpa using this
        calc ((rs.foldl _register_experiment (upsertAssoc reg e.name e)).take
                reg.length).map Prod.fst
            = ((rs.foldl _register_experiment (upsertAssoc reg e.name e)).take
                (upsertAssoc reg e.name e).length).map Prod.fst := by rw [hlen]
          _ = (upsertAssoc reg e.name e).map Prod.fst := ih _
          _ = reg.map Prod.fst := hkeys
      · have hap := upsertAssoc_append_of_not_mem (v := e) hmem
        rw [hap]
        have ihx := ih (reg ++ [(e.name, e)])
        have hL : (reg ++ [(e.name, e)]).length = reg.length + 1 := by simp
        rw [hL] at ihx
        simp only [List.map_append, List.map_cons, List.map_nil] at ihx
        have htk : (rs.foldl _register_experiment (reg ++ [(e.name, e)])).take reg.length =
            ((rs.foldl _register_experiment (reg ++ [(e.name, e)])).take
              (reg.length + 1)).take reg.length := by
          rw [List.take_take]
          congr 1
          omega
        rw [htk, List.map_take, ihx]
        exact List.take_left' (by simp)

/-- Claim C9 (counterexample): a registration inside the scope that re-uses a
name already present at scope entry replaces the old entry in place, at an
index below `current_len`, so the captured sequence stays empty and the node
registered inside the scope does not appear in it.  This refutes the claim
that every node registered inside the scope appears in the yielded sequence,
specifically at its "re-uses (replaces) a name already present" case. -/
theorem capture_misses_replaced_name :
    ((capture_created_experiments [("a", Experiment.mk "a" true [])]
        [Experiment.mk "a" false []]).2 = []) ∧
    (Experiment.mk "a" false [] ∉
      (capture_created_experiments [("a", Experiment.mk "a" true [])]
        [Experiment.mk "a" false []]).2) :=
  have h0 : (capture_created_experiments [("a", Experiment.mk "a" true [])]
      [Experiment.mk "a" false []]).2 = ([] : List Experiment) := rfl
  ⟨h0, fun h => List.not_mem_nil _ (h0 ▸ h)⟩

/-- Claim C9 (amended): every node registered strictly inside the scope under
a name that was not present in the registry at scope entry, and that is not
re-registered later within the scope, appears in the sequence yielded at
scope exit; the scope also works with zero registrations (yielding the empty
sequence).  A registration that re-uses a name present at entry replaces that
entry in place and is not captured. -/
theorem capture_contains_fresh_registrations (reg : Registry) (rs1 rs2 : List Experiment)
    (e : Experiment) (hfresh : e.name ∉ reg.map Prod.fst)
    (hlast : ∀ e2 ∈ rs2, e2.name ≠ e.name) :
    (e ∈ (capture_created_experiments reg (rs1 ++ e :: rs2)).2) ∧
    ((capture_created_experiments reg []).2 = []) := by
  constructor
  · show e ∈ (((rs1 ++ e :: rs2).foldl _register_experiment reg).drop reg.length).map Prod.snd
    have h1 : ((rs1 ++ e :: rs2).foldl _register_experiment reg).lookup e.name = some e := by
      rw [List.foldl_append, List.foldl_cons]
      rw [lookup_foldl_register_of_not_registered rs2 _ e.name hlast]
      exact lookup_upsertAssoc_self _ _ _
    have h2 : (e.name, e) ∈ (rs1 ++ e :: rs2).foldl _register_experiment reg :=
      mem_of_lookup_eq_some h1
    have h3 : (((rs1 ++ e :: rs2).foldl _register_experiment reg).take reg.length).map
        Prod.fst = reg.map Prod.fst := foldl_register_take_keys _ reg
    have h4 : (rs1 ++ e :: rs2).foldl _register_experiment reg =
        ((rs1 ++ e :: rs2).foldl _register_experiment reg).take reg.length ++
          ((rs1 ++ e :: rs2).foldl _register_experiment reg).drop reg.length :=
      (List.take_append_drop _ _).symm
    rcases List.mem_append.mp (h4 ▸ h2) with hin | hin
    · exact absurd (h3 ▸ List.mem_map.mpr ⟨(e.name, e), hin, rfl⟩) hfresh
    · exact List.mem_map.mpr ⟨(e.name, e), hin, rfl⟩
  · show ((([] : List Experiment).foldl _register_experiment reg).drop reg.length).map
        Prod.snd = []
    simp

/-- Witness for C9 at a concrete input: a node with the fresh name "x"
registered inside the scope over an empty registry is captured, and the
zero-registration scope yields the empty sequence. -/
theorem capture_contains_fresh_registrations_witness :
    (Experiment.mk "x" false [] ∈
      (capture_created_experiments [] [Experiment.mk "x" false []]).2) ∧
    ((capture_created_experiments ([] : Registry) []).2 = []) :=
  capture_contains_fresh_registrations [] [] [] (Experiment.mk "x" false [])
    (by simp) (by simp)

/-!
Variant-tree lemmas: an induction principle for the nested `Experiment`
inductive, structural facts about `get_all_variants`, and the registry
invariant maintained by variant creation.
-/

theorem Experiment.ind (P : Experiment → Prop)
    (h : ∀ n r vs, (∀ p ∈ vs, P (Prod.snd p)) → P (Experiment.mk n r vs)) :
    ∀ e, P e
  | .mk n r vs => h n r vs (fun p hp => Experiment.ind P h p.2)
termination_by e => sizeOf e
decreasing_by
  obtain ⟨a, b⟩ := p
  have hlt := List.sizeOf_lt_of_mem hp
  simp at hlt ⊢
  omega

theorem get_all_variants_mk (n : String) (r : Bool) (vs : List (String × Experiment))
    (ir is : Bool) :
    (Experiment.mk n r vs).get_all_variants ir is =
      (if is && (!r || ir) then [Experiment.mk n r vs] else []) ++
        Experiment.get_all_variants.go ir vs := rfl

theorem get_all_variants_go_nil (ir : Bool) :
    Experiment.get_all_variants.go ir [] = [] := rfl

theorem get_all_variants_go_cons (ir : Bool) (k : String) (v : Experiment)
    (rest : List (String × Experiment)) :
    Experiment.get_all_variants.go ir ((k, v) :: rest) =
      v.get_all_variants ir true ++ Experiment.get_all_variants.go ir rest := rfl

theorem get_all_variants_go_append (ir : Bool) (vs1 vs2 : List (String × Experiment)) :
    Experiment.get_all_variants.go ir (vs1 ++ vs2) =
      Experiment.get_all_variants.go ir vs1 ++ Experiment.get_all_variants.go ir vs2 := by
  induction vs1 with
  | nil => simp [get_all_variants_go_nil]
  | cons p rest ih =>
      obtain ⟨k, v⟩ := p
      simp [get_all_variants_go_cons, ih]

theorem mem_get_all_variants_go {x : Experiment} {ir : Bool}
    {vs : List (String × Experiment)} (hx : x ∈ Experiment.get_all_variants.go ir vs) :
    ∃ p ∈ vs, x ∈ (Prod.snd p).get_all_variants ir true := by
  induction vs with
  | nil => rw [get_all_variants_go_nil] at hx; simp at hx
  | cons p rest ih =>
      obtain ⟨k, v⟩ := p
      rw [get_all_variants_go_cons] at hx
      rcases List.mem_append.mp hx with h | h
      · exact ⟨(k, v), List.mem_cons_self .., h⟩
      · obtain ⟨q, hq, hxq⟩ := ih h
        exact ⟨q, List.mem_cons_of_mem _ hq, hxq⟩

theorem is_root_false_of_mem_get_all_variants :
    ∀ e : Experiment, ∀ (is : Bool) (x : Experiment),
      x ∈ e.get_all_variants false is → x.is_root = false := by
  intro e
  induction e using Experiment.ind with
  | h n r vs ih =>
      intro is x hx
      rw [get_all_variants_mk] at hx
      rcases List.mem_append.mp hx with hx | hx
      · by_cases hc : (is && (!r || false)) = true
        · rw [if_pos hc] at hx
          simp only [Bool.or_false, Bool.and_eq_true, Bool.not_eq_true'] at hc
          have hx' : x = Experiment.mk n r vs := by simpa using hx
          subst hx'
          simpa [Experiment.is_root] using hc.2
        · rw [if_neg hc] at hx
          simp at hx
      · obtain ⟨p, hp, hxp⟩ := mem_get_all_variants_go hx
        exact ih p hp true x hxp

theorem self_mem_get_all_variants {e : Experiment} {ir : Bool}
    (h : (!e.is_root || ir) = true) : e ∈ e.get_all_variants ir true := by
  cases e with
  | mk n r vs =>
      rw [get_all_variants_mk, if_pos (by simpa [Experiment.is_root] using h)]
      exact List.mem_append_left _ (List.mem_singleton.mpr rfl)

theorem mem_upsertAssoc {α : Type} {l : List (String × α)} {k : String} {v : α}
    {p : String × α} (hp : p ∈ upsertAssoc l k v) : p ∈ l ∨ Prod.snd p = v := by
  induction l with
  | nil =>
      simp only [upsertAssoc, List.mem_singleton] at hp
      right
      rw [hp]
  | cons q rest ih =>
      obtain ⟨k', v'⟩ := q
      by_cases hk : k' = k
      · simp only [upsertAssoc, if_pos hk] at hp
        rcases List.mem_cons.mp hp with h | h
        · right
          rw [h]
        · exact Or.inl (List.mem_cons_of_mem _ h)
      · simp only [upsertAssoc, if_neg hk] at hp
        rcases List.mem_cons.mp hp with h | h
        · exact Or.inl (h ▸ List.mem_cons_self ..)
        · rcases ih h with h' | h'
          · exact Or.inl (List.mem_cons_of_mem _ h')
          · exact Or.inr h'

theorem create_registry_is_root_inv {parent : Experiment} {args : List String}
    {kwargs : List (String × String)} {ir : Bool} {reg : Registry}
    (hinv : ∀ p ∈ reg, (Prod.snd p).is_root = false) :
    ∀ p ∈ (Experiment.create_experiment_variant parent args kwargs ir reg).registry,
      (Prod.snd p).is_root = false := by
  intro p hp
  rcases args with _ | ⟨a, _ | ⟨b, rest⟩⟩
  · simp only [Experiment.create_experiment_variant, _register_experiment] at hp
    split at hp
    · exact hinv p hp
    · by_cases hir : ir = true
      · rw [if_pos hir] at hp
        exact hinv p hp
      · have hirf : ir = false := Bool.eq_false_iff.mpr hir
        rw [if_neg hir] at hp
        rcases mem_upsertAssoc hp with h2 | h2
        · exact hinv p h2
        · rw [h2]
          simpa [Experiment.is_root] using hirf
  · simp only [Experiment.create_experiment_variant, _register_experiment] at hp
    split at hp
    · exact hinv p hp
    · by_cases hir : ir = true
      · rw [if_pos hir] at hp
        exact hinv p hp
      · have hirf : ir = false := Bool.eq_false_iff.mpr hir
        rw [if_neg hir] at hp
        rcases mem_upsertAssoc hp with h2 | h2
        · exact hinv p h2
        · rw [h2]
          simpa [Experiment.is_root] using hirf
  · exact hinv p hp

theorem applyCreations_is_root_inv :
    ∀ (steps : List CreationStep) (reg : Registry),
      (∀ p ∈ reg, (Prod.snd p).is_root = false) →
      ∀ p ∈ applyCreations reg steps, (Prod.snd p).is_root = false := by
  intro steps
  induction steps with
  | nil => intro reg h; exact h
  | cons s rest ih =>
      intro reg h
      simp only [applyCreations, List.foldl_cons]
      exact ih _ (create_registry_is_root_inv h)

theorem create_root_variant_ok {parent : Experiment} {args : List String}
    {kwargs : List (String × String)} {reg : Registry} {child : Experiment}
    (h : (Experiment.create_experiment_variant parent args kwargs true reg).result =
      .ok child) :
    child = Experiment.mk (parent.name ++ "." ++ resolveVariantName args kwargs) true [] ∧
    (Experiment.create_experiment_variant parent args kwargs true reg).parent =
      Experiment.mk parent.name parent.is_root
        (parent.variants ++ [(resolveVariantName args kwargs, child)]) := by
  rcases args with _ | ⟨a, _ | ⟨b, rest⟩⟩
  · simp only [Experiment.create_experiment_variant] at h ⊢
    split at h
    · simp at h
    · obtain rfl : Experiment.mk (parent.name ++ "." ++ resolveVariantName [] kwargs)
          true [] = child := by simpa using h
      split
      · simp_all
      · exact ⟨rfl, rfl⟩
  · simp only [Experiment.create_experiment_variant] at h ⊢
    split at h
    · simp at h
    · obtain rfl : Experiment.mk (parent.name ++ "." ++ resolveVariantName [a] kwargs)
          true [] = child := by simpa using h
      split
      · simp_all
      · exact ⟨rfl, rfl⟩
  · simp [Experiment.create_experiment_variant] at h

/-- Claim C7 (counterexample): local variant names may contain dots, so two
different creation paths can produce the same fully-qualified name.  Starting
from the registered experiment "a", the call `add_root_variant('b.c')`
creates the root node named "a.b.c" (never registered), but the subsequent
non-root creations `add_variant('b')` on "a" and `add_variant('c')` on "a.b"
register a different node with the very same name "a.b.c" — after that
sequence of variant creations, registry lookup by the root node's name
succeeds, refuting "lookup by its name fails". -/
theorem root_variant_name_lookup_can_succeed :
    ((Experiment.create_experiment_variant (Experiment.mk "a" false []) ["b.c"] [] true
        [("a", Experiment.mk "a" false [])]).result = .ok (Experiment.mk "a.b.c" true [])) ∧
    ((applyCreations [("a", Experiment.mk "a" false [])]
        [⟨Experiment.mk "a" false [], ["b.c"], [], true⟩,
         ⟨Experiment.mk "a" false [("b.c", Experiment.mk "a.b.c" true [])], ["b"], [], false⟩,
         ⟨Experiment.mk "a.b" false [], ["c"], [], false⟩]).lookup "a.b.c" =
      some (Experiment.mk "a.b.c" false [])) ∧
    ((Experiment.mk "a.b.c" true []).name = "a.b.c") ∧
    ((Experiment.mk "a.b.c" true []).is_root = true) :=
  ⟨rfl, rfl, rfl, rfl⟩

/-- Claim C7 (amended): a node created with `add_root_variant` is never
entered into the global registry — after any sequence of variant creations
starting from a registry whose values are all non-root, every registry value
is still non-root, so no registry entry ever holds a root node (although
lookup by the root node's *name* may succeed when a separately created
non-root node carries the same dotted name); the root-created node does
appear in the parent's `get_all_variants(include_roots=True)` and is excluded
from `get_all_variants(include_roots=False)`. -/
theorem root_variants_never_registered :
    (∀ (reg : Registry) (steps : List CreationStep),
      (∀ p ∈ reg, (Prod.snd p).is_root = false) →
      ∀ p ∈ applyCreations reg steps, (Prod.snd p).is_root = false) ∧
    (∀ (parent : Experiment) (args : List String) (kwargs : List (String × String))
        (reg : Registry) (child : Experiment),
      (Experiment.create_experiment_variant parent args kwargs true reg).result = .ok child →
      child.is_root = true ∧
      (∀ is : Bool, child ∈
        (Experiment.create_experiment_variant parent args kwargs true
          reg).parent.get_all_variants true is) ∧
      (∀ is : Bool, child ∉
        (Experiment.create_experiment_variant parent args kwargs true
          reg).parent.get_all_variants false is)) := by
  constructor
  · intro reg steps hinv
    exact applyCreations_is_root_inv steps reg hinv
  · intro parent args kwargs reg child h
    obtain ⟨hchild, hparent⟩ := create_root_variant_ok h
    refine ⟨by rw [hchild]; rfl, fun is => ?_, fun is hmem => ?_⟩
    · rw [hparent, get_all_variants_mk, get_all_variants_go_append,
        get_all_variants_go_cons, get_all_variants_go_nil]
      refine List.mem_append_right _ (List.mem_append_right _ ?_)
      rw [List.append_nil]
      exact self_mem_get_all_variants (by rw [hchild]; rfl)
    · have hfalse := is_root_false_of_mem_get_all_variants _ is child hmem
      rw [hchild] at hfalse
      simp [Experiment.is_root] at hfalse

/-- Witness for C7 at a concrete input: one `add_root_variant('r')` creation
on the experiment "seed" keeps every registry value non-root, while the
created root node "seed.r" is in `get_all_variants(include_roots=True)` of
the updated parent and not in `get_all_variants(include_roots=False)`. -/
theorem root_variants_never_registered_witness :
    (∀ p ∈ applyCreations [("seed", Experiment.mk "seed" false [])]
        [⟨Experiment.mk "seed" false [], ["r"], [], true⟩],
      (Prod.snd p).is_root = false) ∧
    ((Experiment.mk "seed.r" true []).is_root = true) ∧
    (Experiment.mk "seed.r" true [] ∈
      (Experiment.create_experiment_variant (Experiment.mk "seed" false []) ["r"] [] true
        [("seed", Experiment.mk "seed" false [])]).parent.get_all_variants true true) ∧
    (Experiment.mk "seed.r" true [] ∉
      (Experiment.create_experiment_variant (Experiment.mk "seed" false []) ["r"] [] true
        [("seed", Experiment.mk "seed" false [])]).parent.get_all_variants false true) :=
  ⟨root_variants_never_registered.1 [("seed", Experiment.mk "seed" false [])] _
      (by intro p hp; rw [List.mem_singleton] at hp; subst hp; rfl),
   (root_variants_never_registered.2 (Experiment.mk "seed" false []) ["r"] []
      [("seed", Experiment.mk "seed" false [])] (Experiment.mk "seed.r" true []) rfl).1,
   (root_variants_never_registered.2 (Experiment.mk "seed" false []) ["r"] []
      [("seed", Experiment.mk "seed" false [])] (Experiment.mk "seed.r" true []) rfl).2.1 true,
   (root_variants_never_registered.2 (Experiment.mk "seed" false []) ["r"] []
      [("seed", Experiment.mk "seed" false [])] (Experiment.mk "seed.r" true []) rfl).2.2 true⟩

/-!
`OrderedDict` construction lemmas and the variant-record query claims.
-/

theorem odFromList_aux {α : Type} :
    ∀ (l acc : List (String × α)), ((acc ++ l).map Prod.fst).Nodup →
      l.foldl (fun a p => upsertAssoc a p.1 p.2) acc = acc ++ l := by
  intro l
  induction l with
  | nil => intro acc _; simp
  | cons p rest ih =>
      intro acc h
      obtain ⟨k, v⟩ := p
      have h' := h
      rw [List.map_append, List.nodup_append] at h'
      have hk : k ∉ acc.map Prod.fst := fun hin => h'.2.2 hin (by simp)
      rw [List.foldl_cons]
      show rest.foldl (fun a p => upsertAssoc a p.1 p.2) (upsertAssoc acc k v) =
        acc ++ (k, v) :: rest
      rw [upsertAssoc_append_of_not_mem hk,
        ih (acc ++ [(k, v)]) (by rw [← List.append_cons]; exact h)]
      simp

theorem odFromList_eq_self {α : Type} {l : List (String × α)}
    (h : (l.map Prod.fst).Nodup) : odFromList l = l := by
  simpa [odFromList] using odFromList_aux l [] (by simpa using h)

/-- Claim C8 (counterexample): a tree in which two distinct variants share
the fully-qualified name "a.b.c" (possible because local variant names may
contain dots) has four variants in `get_all_variants(include_self=True)`
order, but `get_variant_records(only_last=True, flat=False)` collapses them
into an `OrderedDict` with only three entries — not "exactly one entry per
variant". -/
theorem get_variant_records_duplicate_name_collapse :
    ((collidingTree.get_all_variants false true).map Experiment.name =
      ["a", "a.b.c", "a.b", "a.b.c"]) ∧
    (collidingTree.get_variant_records (fun _ => []) true true false =
      VariantRecords.lastDict [("a", none), ("a.b.c", none), ("a.b", none)]) ∧
    (([("a", (none : Option StoredRecord)), ("a.b.c", none), ("a.b", none)]).length ≠
      (collidingTree.get_all_variants false true).length) :=
  ⟨rfl, rfl, by decide⟩

/-- Claim C8 (amended): for a node whose variant traversal yields pairwise
distinct fully-qualified names, `get_variant_records(only_last=True)`
returns, for `flat=True`, the per-variant latest records with the absent ones
dropped (so the flat sequence contains no absent entry), and, for
`flat=False`, an ordered mapping with exactly one entry — the latest record
or an explicit absence — per variant, keyed by variant name, in
`get_all_variants(include_self=True)` order. -/
theorem get_variant_records_shape (e : Experiment) (env : String → List StoredRecord)
    (oc : Bool)
    (hnd : ((e.get_all_variants false true).map Experiment.name).Nodup) :
    (e.get_variant_records env oc true true =
      VariantRecords.flat (((e.get_all_variants false true).map
        (fun ex => ex.get_latest_record env oc)).filterMap id)) ∧
    (e.get_variant_records env oc true false =
      VariantRecords.lastDict ((e.get_all_variants false true).map
        (fun ex => (ex.name, ex.get_latest_record env oc)))) := by
  have hkeys : (((e.get_all_variants false true).map
      (fun ex => (ex.name, ex.get_latest_record env oc))).map Prod.fst).Nodup := by
    simpa [List.map_map, Function.comp] using hnd
  have hod := odFromList_eq_self hkeys
  constructor
  · simp only [Experiment.get_variant_records, if_true]
    rw [hod, List.map_map]
    rfl
  · simp only [Experiment.get_variant_records, if_true]
    rw [hod]
    rfl

/-- Witness for C8 at a concrete input: the two-node tree "w" with variant
"w.v" has distinct names, its flat query is the (empty) sequence of present
records and its dict query has one entry per variant in traversal order. -/
theorem get_variant_records_shape_witness :
    ((((Experiment.mk "w" false [("v", Experiment.mk "w.v" false
        [])]).get_all_variants false true).map Experiment.name).Nodup) ∧
    ((Experiment.mk "w" false [("v", Experiment.mk "w.v" false
        [])]).get_variant_records (fun _ => []) true true true =
      VariantRecords.flat ((((Experiment.mk "w" false [("v", Experiment.mk "w.v" false
        [])]).get_all_variants false true).map
        (fun ex => ex.get_latest_record (fun _ => []) true)).filterMap id)) ∧
    ((Experiment.mk "w" false [("v", Experiment.mk "w.v" false
        [])]).get_variant_records (fun _ => []) true true false =
      VariantRecords.lastDict (((Experiment.mk "w" false [("v", Experiment.mk "w.v" false
        [])]).get_all_variants false true).map
        (fun ex => (ex.name, ex.get_latest_record (fun _ => []) true)))) :=
  ⟨by decide,
   (get_variant_records_shape (Experiment.mk "w" false [("v", Experiment.mk "w.v" false [])])
      (fun _ => []) true (by decide)).1,
   (get_variant_records_shape (Experiment.mk "w" false [("v", Experiment.mk "w.v" false [])])
      (fun _ => []) true (by decide)).2⟩
